import Mathlib

/-!
Verification of the instance-tracking and lifecycle core of `brian2/core/base.py`:
the `WeakSet` / `InstanceFollower` / `InstanceTracker` registry machinery,
`BrianObject` construction and its cascading `active` property, `get_instances`,
and the module-level `clear` operation.
-/

namespace Brian

/-- Errors surfaced by the embedded operations.  `fuelOut` is the modelling
artefact for a source recursion that would fail to terminate. -/
inductive PyErr where
  | typeError
  | keyError
  | attributeError
  | fuelOut
  deriving DecidableEq, Repr

/-- Python values the embedded code manipulates: the null value, booleans,
integers, strings, Clock instances (by id), lists of object ids, and tracked
instances (by id). -/
inductive PyVal where
  | none
  | bool (b : Bool)
  | int (n : Int)
  | str (s : String)
  | clockRef (c : Nat)
  | list (l : List Nat)
  | inst (i : Nat)
  deriving DecidableEq, Repr

/-- A weak reference handle: the id of its target together with whether the
target is still alive.  A collected target turns the handle dead; dereferencing
a dead handle yields the null value. -/
structure Handle where
  target : Nat
  alive : Bool
  deriving DecidableEq, Repr

/-- Membership test of Python set semantics on weak references: `ref(value)`
(with `value` alive) compares equal exactly to a stored live reference with the
same target; dead references are never equal to a live one. -/
def anyLive (ws : List Handle) (i : Nat) : Bool :=
  ws.any fun h => h.alive && h.target == i

/-- WeakSet.add: `wr = ref(value, self.remove); set.add(self, wr)`.  Adding a
reference equal to one already present leaves the set unchanged. -/
def WeakSet.add (ws : List Handle) (i : Nat) : List Handle :=
  if anyLive ws i then ws else ws ++ [⟨i, true⟩]

/-- set.remove, inherited by WeakSet (not overridden): removes the element
equal to `ref(value)` and raises KeyError when no such element is present. -/
def WeakSet.remove (ws : List Handle) (i : Nat) : Except PyErr (List Handle) :=
  if anyLive ws i then
    .ok (ws.filter fun h => !(h.alive && h.target == i))
  else
    .error .keyError

/-- WeakSet.get: `[x() for x in self]`.  Every element is dereferenced; a dead
reference dereferences to the null value and is kept in the result. -/
def WeakSet.get (ws : List Handle) : List PyVal :=
  ws.map fun h => if h.alive then .inst h.target else .none

/-- The `__instancesets__` dictionary of `InstanceFollower`: class ids mapped
to weak sets. -/
abbrev Registry := List (Nat × List Handle)

/-- dictionary lookup -/
def regFind : Registry → Nat → Option (List Handle)
  | [], _ => .none
  | (c', ws) :: rest, c => if c' = c then .some ws else regFind rest c

/-- dictionary update (replace the binding of the key, or append a fresh one) -/
def regSet : Registry → Nat → List Handle → Registry
  | [], c, ws => [(c, ws)]
  | (c', ws') :: rest, c, ws =>
      if c' = c then (c, ws) :: rest else (c', ws') :: regSet rest c ws

/-- id of the class `object`, root of every MRO -/
def objectClassId : Nat := 0

/-- id of the class `InstanceTracker` -/
def instanceTrackerId : Nat := 1

/-- id of the class `BrianObject` -/
def brianObjectId : Nat := 2

/-- A Python class as the tracking machinery sees it: its identity, the ids of
its proper ancestors (so `mro` below is the method resolution order, the class
itself first), and the effective value of the `_track_instances` attribute. -/
structure PyClass where
  id : Nat
  ancestors : List Nat
  trackInstances : Bool
  deriving DecidableEq, Repr

/-- `__mro__`: the class itself followed by its ancestors. -/
def PyClass.mro (c : PyClass) : List Nat := c.id :: c.ancestors

/-- one iteration of `InstanceFollower.add`: lazily create the class's WeakSet
and add a reference to the value. -/
def regAddStep (r : Registry) (c i : Nat) : Registry :=
  regSet r c (WeakSet.add ((regFind r c).getD []) i)

/-- one iteration of `InstanceFollower.remove`: lazily create the class's
WeakSet (the source does create it even when the key is missing) and call
`set.remove`, which can raise KeyError.  An exception aborts the walk; the
embedding drops the partially mutated dictionary in that case, which no claim
observes. -/
def regRemoveStep (r : Registry) (c i : Nat) : Except PyErr Registry :=
  (WeakSet.remove ((regFind r c).getD []) i).map (regSet r c)

/-- InstanceFollower.add: walk the full MRO of the value's class and add a
reference to the value under every class in it. -/
def InstanceFollower.add (reg : Registry) (cls : PyClass) (i : Nat) : Registry :=
  cls.mro.foldl (fun r c => regAddStep r c i) reg

/-- InstanceFollower.remove: walk the full MRO of the value's class and call
`set.remove` on every class's entry. -/
def InstanceFollower.remove (reg : Registry) (cls : PyClass) (i : Nat) :
    Except PyErr Registry :=
  cls.mro.foldlM (fun r c => regRemoveStep r c i) reg

/-- InstanceFollower.get: the empty list for a class never seen, otherwise the
dereferenced contents of its WeakSet. -/
def InstanceFollower.get (reg : Registry) (c : Nat) : List PyVal :=
  match regFind reg c with
  | .some ws => WeakSet.get ws
  | .none => []

/-- InstanceTracker.__new__: register the freshly created object with the
shared follower when `_track_instances` holds (this happens before `__init__`
runs). -/
def InstanceTracker.new (reg : Registry) (cls : PyClass) (i : Nat) : Registry :=
  if cls.trackInstances then InstanceFollower.add reg cls i else reg

/-- InstanceTracker._stop_tracking -/
def InstanceTracker.stopTracking (reg : Registry) (cls : PyClass) (i : Nat) :
    Except PyErr Registry :=
  InstanceFollower.remove reg cls i

/-- InstanceTracker._start_tracking -/
def InstanceTracker.startTracking (reg : Registry) (cls : PyClass) (i : Nat) :
    Registry :=
  InstanceFollower.add reg cls i

/-- get_instances: a class lacking the `__instancefollower__` attribute (one
not derived from `InstanceTracker`) makes the attribute access raise, turned
into a TypeError; otherwise the follower is queried with the class itself as
the key. -/
def get_instances (reg : Registry) (cls : PyClass) : Except PyErr (List PyVal) :=
  if instanceTrackerId ∈ cls.mro then .ok (InstanceFollower.get reg cls.id)
  else .error .typeError

/-- The `__dict__` of a `BrianObject` as `__init__` creates it: the five
instance attributes `when`, `order`, `_clock`, `_contained_objects`,
`_active`, each holding an arbitrary Python value (the erase pass of `clear`
sets each of them to the null value). -/
structure ObjState where
  when : PyVal
  order : PyVal
  clock : PyVal
  contained : PyVal
  active : PyVal
  deriving DecidableEq, Repr

/-- BrianObject.__init__: `when` must be a string, else TypeError; a null
`clock` is replaced by the process-wide default clock; the resolved clock must
be a Clock instance, else TypeError; then the five attributes are set, with
`_contained_objects` a fresh empty list and `_active` true.  `order` is stored
without any check. -/
def BrianObject.init (wv ov cv dflt : PyVal) : Except PyErr ObjState :=
  match wv with
  | .str s =>
      let cv' := if cv = .none then dflt else cv
      match cv' with
      | .clockRef c => .ok ⟨.str s, ov, .clockRef c, .list [], .bool true⟩
      | _ => .error .typeError
  | _ => .error .typeError

/-- The attribute dictionaries of all instances, indexed by instance id. -/
abbrev Store := Nat → ObjState

/-- pointwise store update -/
def updStore (σ : Store) (i : Nat) (o : ObjState) : Store :=
  fun j => if j = i then o else σ j

/-- BrianObject._set_active: coerce the value to bool (the claims take it as a
bool already), assign `_active`, then set `active` on every object in
`_contained_objects` in turn.  The source recursion has no cycle guard, so the
embedding carries explicit fuel; exhausted fuel is `fuelOut`, and iterating a
`_contained_objects` that is not a list is a TypeError. -/
def BrianObject.setActive : Nat → Store → Nat → Bool → Except PyErr Store
  | 0, _, _, _ => .error .fuelOut
  | fuel + 1, σ, i, v =>
      let σ1 := updStore σ i { σ i with active := .bool v }
      match (σ i).contained with
      | .list kids => kids.foldlM (fun τ j => BrianObject.setActive fuel τ j v) σ1
      | _ => .error .typeError

/-- The global state `clear` operates on: the follower's registry, each
instance's class, and each instance's attribute dictionary. -/
structure World where
  reg : Registry
  clsOf : Nat → PyClass
  store : Store

/-- the class `BrianObject` itself: derived from `InstanceTracker`, tracked -/
def brianObjectClass : PyClass :=
  ⟨brianObjectId, [instanceTrackerId, objectClassId], true⟩

/-- an attribute dictionary with every attribute nulled out -/
def allNone : ObjState := ⟨.none, .none, .none, .none, .none⟩

/-- the erase pass of `clear`: for every snapshotted object, set each of its
`__dict__` entries to the null value. -/
def eraseStore (σ : Store) (objs : List PyVal) : Store :=
  objs.foldl
    (fun τ ov => match ov with | .inst i => updStore τ i allNone | _ => τ) σ

/-- one iteration of the first loop of `clear`: `obj.active = False` (the
cascading property setter) followed by `obj._stop_tracking()`.  An element of
the snapshot that is the null value (a dereferenced dead handle) would make
the attribute assignment raise. -/
def clearStep (fuel : Nat) (wa : World) (ov : PyVal) : Except PyErr World :=
  match ov with
  | .inst i => do
      let st ← BrianObject.setActive fuel wa.store i false
      let rg ← InstanceTracker.stopTracking wa.reg (wa.clsOf i) i
      pure { wa with store := st, reg := rg }
  | _ => .error .attributeError

/-- clear: take the snapshot of every BrianObject, set each inactive and stop
tracking it; when `erase` is set, afterwards null out every attribute of every
snapshotted object.  The final `gc.collect()` is driven by the host runtime
and does not change this state. -/
def clear (fuel : Nat) (erase : Bool) (w : World) : Except PyErr World := do
  let objs ← get_instances w.reg brianObjectClass
  let w1 ← objs.foldlM (clearStep fuel) w
  if erase then pure { w1 with store := eraseStore w1.store objs } else pure w1

/-- the registry entry for class id `c` holds a live handle to instance `i` -/
def liveMemB (reg : Registry) (c i : Nat) : Bool :=
  match regFind reg c with
  | .some ws => anyLive ws i
  | .none => false

/-- reachability through the `_contained_objects` lists of a store -/
inductive Reaches (σ : Store) : Nat → Nat → Prop
  | refl (i : Nat) : Reaches σ i i
  | step (i j k : Nat) (kids : List Nat) :
      (σ i).contained = .list kids → j ∈ kids → Reaches σ j k → Reaches σ i k

/-- acyclicity of the containment graph, presented as a topological numbering:
every contained object has a strictly smaller id than its container. -/
def TopoBelow (σ : Store) : Prop :=
  ∀ i kids, (σ i).contained = .list kids → ∀ j ∈ kids, j < i

/-- every object's `_contained_objects` attribute is an actual list -/
def ContainedListed (σ : Store) : Prop :=
  ∀ i, ∃ kids, (σ i).contained = .list kids

/-- the registry invariants the tracking machinery maintains: every stored
handle is live, no set holds two handles to one target, every handle sits only
under classes of its target's MRO, MROs are duplicate-free, and every handle's
target is present under every class of its target's MRO. -/
def RegInv (w : World) : Prop :=
  (∀ p ∈ w.reg, ∀ h ∈ p.2, h.alive = true) ∧
  (∀ p ∈ w.reg, (p.2.map Handle.target).Nodup) ∧
  (∀ p ∈ w.reg, ∀ h ∈ p.2, p.1 ∈ (w.clsOf h.target).mro) ∧
  (∀ p ∈ w.reg, ∀ h ∈ p.2, (w.clsOf h.target).mro.Nodup) ∧
  (∀ p ∈ w.reg, ∀ h ∈ p.2, ∀ c ∈ (w.clsOf h.target).mro,
     liveMemB w.reg c h.target = true)

/-- the phase label used by the construction examples -/
def startLabel : String := "start"

/-- a non-clock string passed as `clock` in the construction examples -/
def notAClock : String := "not-a-clock"

/-- a user class derived from `InstanceTracker` (and `object`), tracked -/
def demoTrackedClass : PyClass := ⟨3, [instanceTrackerId, objectClassId], true⟩

/-- a class that never derived from `InstanceTracker` -/
def untrackedClass : PyClass := ⟨9, [objectClassId], true⟩

/-- C3: constructing a BrianObject with a non-string `when` raises TypeError;
with a resolved `clock` that is not a Clock instance it raises TypeError; with
`clock` omitted it resolves to the default clock and succeeds, fixing `when`,
`order`, `clock` as given, with an empty `_contained_objects` list and
`_active` true. -/
theorem init_validates_when_and_clock :
    (∀ (wv ov cv d : PyVal), (∀ s, wv ≠ .str s) →
       BrianObject.init wv ov cv d = .error .typeError) ∧
    (∀ (s : String) (ov cv d : PyVal), cv ≠ .none → (∀ c, cv ≠ .clockRef c) →
       BrianObject.init (.str s) ov cv d = .error .typeError) ∧
    (∀ (s : String) (ov : PyVal) (c : Nat),
       BrianObject.init (.str s) ov .none (.clockRef c) =
         .ok ⟨.str s, ov, .clockRef c, .list [], .bool true⟩) := by
  refine ⟨?_, ?_, ?_⟩
  · intro wv ov cv d hw
    cases wv <;> first | rfl | exact absurd rfl (hw _)
  · intro s ov cv d hn hc
    cases cv with
    | none => exact absurd rfl hn
    | clockRef c => exact absurd rfl (hc c)
    | bool b => rfl
    | int n => rfl
    | str t => rfl
    | list l => rfl
    | inst i => rfl
  · intro s ov c
    rfl

/-- C3 witness: `when = 42` raises, `clock = "not-a-clock"` raises, omitted
clock succeeds with the default clock. -/
theorem init_validates_when_and_clock_witness :
    BrianObject.init (.int 42) .none .none (.clockRef 0) = .error .typeError ∧
    BrianObject.init (.str startLabel) (.int 0) (.str notAClock) (.clockRef 0) =
      .error .typeError ∧
    BrianObject.init (.str startLabel) (.int 0) .none (.clockRef 0) =
      .ok ⟨.str startLabel, .int 0, .clockRef 0, .list [], .bool true⟩ :=
  ⟨init_validates_when_and_clock.1 _ _ _ _ (fun _ h => PyVal.noConfusion h),
   init_validates_when_and_clock.2.1 startLabel _ _ _
     (fun h => PyVal.noConfusion h) (fun _ h => PyVal.noConfusion h),
   init_validates_when_and_clock.2.2 startLabel _ 0⟩

/-- C9: `order` is stored entirely unchecked — for every value `ov` of any
shape, construction with valid `when` and `clock` succeeds and stores `order`
equal to `ov`, in contrast to the checks applied to `when` and `clock`. -/
theorem init_stores_order_unchecked (ov d : PyVal) (s : String) (c : Nat) :
    ∃ st, BrianObject.init (.str s) ov (.clockRef c) d = .ok st ∧
      st.order = ov ∧ st.when = .str s ∧ st.clock = .clockRef c ∧
      st.contained = .list [] ∧ st.active = .bool true :=
  ⟨_, rfl, rfl, rfl, rfl, rfl, rfl⟩

/-- C2 (code-bug evidence): removal of an absent instance is not a no-op.
Constructing a tracked instance and calling `_stop_tracking` twice makes the
second call raise KeyError: `WeakSet` inherits `set.remove`, which raises on a
missing element. -/
theorem stop_tracking_twice_raises :
    InstanceTracker.stopTracking
        (InstanceTracker.new [] demoTrackedClass 0) demoTrackedClass 0 =
      .ok [(3, []), (instanceTrackerId, []), (objectClassId, [])] ∧
    InstanceTracker.stopTracking
        [(3, []), (instanceTrackerId, []), (objectClassId, [])]
        demoTrackedClass 0 =
      .error .keyError :=
  ⟨rfl, rfl⟩

/-- C8 counterexample: a registry entry holding a handle whose target was
collected but not yet pruned is surfaced by get_instances as a null entry in
the snapshot, not skipped: `WeakSet.get` dereferences every stored handle. -/
theorem snapshot_contains_none_for_dead_handle :
    get_instances [(brianObjectId, [⟨7, false⟩])] brianObjectClass =
      .ok [PyVal.none] ∧ PyVal.none ∈ [PyVal.none] :=
  ⟨rfl, by decide⟩

/-- C8 amended: the snapshot dereferences every handle in the set; a dead
handle yields a null entry rather than being skipped, so the snapshot consists
exactly of the live instances — with no null entry — precisely when every
handle in the set is live (the state the auto-prune callback maintains). -/
theorem weakset_get_of_live_handles (ws : List Handle)
    (hl : ∀ h ∈ ws, h.alive = true) :
    PyVal.none ∉ WeakSet.get ws ∧
    (∀ x ∈ WeakSet.get ws, ∃ h ∈ ws, x = .inst h.target) ∧
    (∀ h ∈ ws, PyVal.inst h.target ∈ WeakSet.get ws) := by
  refine ⟨?_, ?_, ?_⟩
  · intro hmem
    rcases List.mem_map.mp hmem with ⟨h, hh, heq⟩
    rw [hl h hh] at heq
    simp at heq
  · intro x hx
    rcases List.mem_map.mp hx with ⟨h, hh, heq⟩
    refine ⟨h, hh, ?_⟩
    rw [hl h hh] at heq
    simp at heq
    exact heq.symm
  · intro h hh
    refine List.mem_map.mpr ⟨h, hh, ?_⟩
    rw [hl h hh]
    simp

/-- C8 amendment witness: a set of one live handle snapshots to exactly its
instance and no null entry. -/
theorem weakset_get_of_live_handles_witness :
    PyVal.none ∉ WeakSet.get [⟨3, true⟩] ∧
    (∀ x ∈ WeakSet.get [⟨3, true⟩], ∃ h ∈ [(⟨3, true⟩ : Handle)], x = .inst h.target) ∧
    (∀ h ∈ [(⟨3, true⟩ : Handle)], PyVal.inst h.target ∈ WeakSet.get [⟨3, true⟩]) :=
  weakset_get_of_live_handles [⟨3, true⟩] (by decide)

/-- C4: querying get_instances with a class that never derived from
`InstanceTracker` raises TypeError rather than returning an empty result,
while a trackable class with no registry entry yet yields the empty list. -/
theorem get_instances_untracked_raises_unseen_empty :
    (∀ (reg : Registry) (cls : PyClass), instanceTrackerId ∉ cls.mro →
       get_instances reg cls = .error .typeError) ∧
    (∀ (reg : Registry) (cls : PyClass), instanceTrackerId ∈ cls.mro →
       regFind reg cls.id = .none → get_instances reg cls = .ok []) := by
  constructor
  · intro reg cls h
    unfold get_instances
    rw [if_neg h]
  · intro reg cls h hf
    unfold get_instances InstanceFollower.get
    rw [if_pos h, hf]

/-- C4 witness: a never-trackable class raises on the empty registry, a
trackable class with no entry yields the empty list. -/
theorem get_instances_untracked_raises_unseen_empty_witness :
    get_instances [] untrackedClass = .error .typeError ∧
    get_instances [] brianObjectClass = .ok [] :=
  ⟨get_instances_untracked_raises_unseen_empty.1 [] untrackedClass (by decide),
   get_instances_untracked_raises_unseen_empty.2 [] brianObjectClass
     (by decide) rfl⟩

lemma regFind_cons (a : Nat) (wsa : List Handle) (l : Registry) (c : Nat) :
    regFind ((a, wsa) :: l) c = if a = c then .some wsa else regFind l c := rfl

lemma regFind_regSet (r : Registry) (c : Nat) (ws : List Handle) (c' : Nat) :
    regFind (regSet r c ws) c' = if c = c' then .some ws else regFind r c' := by
  induction r with
  | nil => simp [regSet, regFind]
  | cons p rest ih =>
      obtain ⟨a, wsa⟩ := p
      by_cases hac : a = c
      · subst hac
        rw [show regSet ((a, wsa) :: rest) a ws = (a, ws) :: rest from by
              simp [regSet]]
        rw [regFind_cons, regFind_cons]
        split_ifs <;> rfl
      · rw [show regSet ((a, wsa) :: rest) c ws = (a, wsa) :: regSet rest c ws from by
              simp [regSet, hac]]
        rw [regFind_cons, regFind_cons, ih]
        split_ifs <;> first | rfl | omega

lemma mem_regSet {p : Nat × List Handle} {r : Registry} {c : Nat}
    {ws : List Handle} (h : p ∈ regSet r c ws) : p = (c, ws) ∨ p ∈ r := by
  induction r with
  | nil => simpa [regSet] using h
  | cons q rest ih =>
      simp only [regSet] at h
      split_ifs at h with hq
      · rcases List.mem_cons.mp h with h1 | h1
        · exact Or.inl h1
        · exact Or.inr (List.mem_cons.mpr (Or.inr h1))
      · rcases List.mem_cons.mp h with h1 | h1
        · exact Or.inr (List.mem_cons.mpr (Or.inl h1))
        · rcases ih h1 with h2 | h2
          · exact Or.inl h2
          · exact Or.inr (List.mem_cons.mpr (Or.inr h2))

lemma regFind_mem {r : Registry} {c : Nat} {ws : List Handle}
    (h : regFind r c = .some ws) : (c, ws) ∈ r := by
  induction r with
  | nil => simp [regFind] at h
  | cons q rest ih =>
      obtain ⟨a, wsa⟩ := q
      simp only [regFind] at h
      split_ifs at h with ha
      · injection h with h'
        subst h'
        subst ha
        exact List.mem_cons_self _ _
      · exact List.mem_cons.mpr (Or.inr (ih h))

lemma anyLive_add_self (ws : List Handle) (i : Nat) :
    anyLive (WeakSet.add ws i) i = true := by
  unfold WeakSet.add
  split_ifs with h
  · exact h
  · simp [anyLive, List.any_append]

lemma anyLive_add_mono {ws : List Handle} {j : Nat} (i : Nat)
    (h : anyLive ws j = true) : anyLive (WeakSet.add ws i) j = true := by
  unfold WeakSet.add
  split_ifs with hi
  · exact h
  · unfold anyLive at h ⊢
    simp only [List.any_append, Bool.or_eq_true]
    exact Or.inl h

lemma liveMemB_addStep_self (r : Registry) (c i : Nat) :
    liveMemB (regAddStep r c i) c i = true := by
  unfold liveMemB regAddStep
  rw [regFind_regSet]
  simp [anyLive_add_self]

lemma liveMemB_addStep_mono {r : Registry} {c' j : Nat} (c i : Nat)
    (h : liveMemB r c' j = true) : liveMemB (regAddStep r c i) c' j = true := by
  unfold liveMemB at h ⊢
  unfold regAddStep
  rw [regFind_regSet]
  by_cases hc : c = c'
  · subst hc
    rw [if_pos rfl]
    cases hf : regFind r c with
    | none => rw [hf] at h; simp at h
    | some ws =>
        rw [hf] at h
        simpa using anyLive_add_mono i h
  · rw [if_neg hc]
    exact h

lemma liveMemB_addFold_mono (i : Nat) :
    ∀ (l : List Nat) (r : Registry) (c' j : Nat),
      liveMemB r c' j = true →
      liveMemB (l.foldl (fun r c => regAddStep r c i) r) c' j = true := by
  intro l
  induction l with
  | nil => intro r c' j h; exact h
  | cons a rest ih =>
      intro r c' j h
      exact ih _ _ _ (liveMemB_addStep_mono a i h)

lemma liveMemB_addFold_mem (i : Nat) :
    ∀ (l : List Nat) (r : Registry) (c : Nat), c ∈ l →
      liveMemB (l.foldl (fun r c => regAddStep r c i) r) c i = true := by
  intro l
  induction l with
  | nil => intro r c h; cases h
  | cons a rest ih =>
      intro r c h
      rcases List.mem_cons.mp h with h1 | h1
      · subst h1
        exact liveMemB_addFold_mono i rest _ _ _ (liveMemB_addStep_self r c i)
      · exact ih _ _ h1

lemma inst_mem_weakSetGet_iff (ws : List Handle) (j : Nat) :
    PyVal.inst j ∈ WeakSet.get ws ↔ anyLive ws j = true := by
  unfold WeakSet.get anyLive
  rw [List.any_eq_true]
  constructor
  · intro hm
    rcases List.mem_map.mp hm with ⟨h, hh, heq⟩
    refine ⟨h, hh, ?_⟩
    by_cases ha : h.alive = true
    · rw [if_pos ha] at heq
      injection heq with h'
      simp [ha, h']
    · rw [if_neg ha] at heq
      exact PyVal.noConfusion heq
  · rintro ⟨h, hh, hp⟩
    simp only [Bool.and_eq_true, beq_iff_eq] at hp
    exact List.mem_map.mpr ⟨h, hh, by simp [hp.1, hp.2]⟩

lemma inst_mem_followerGet_iff (reg : Registry) (c j : Nat) :
    PyVal.inst j ∈ InstanceFollower.get reg c ↔ liveMemB reg c j = true := by
  unfold InstanceFollower.get liveMemB
  cases regFind reg c with
  | none => simp
  | some ws => simpa using inst_mem_weakSetGet_iff ws j

/-- a subclass chain BrianObject -> demoSubClass, tracked -/
def demoSubClass : PyClass :=
  ⟨4, [brianObjectId, instanceTrackerId, objectClassId], true⟩

/-- C1: constructing an instance of a class whose `_track_instances` holds
registers a live handle to it in the registry entry of every class of its MRO
(the class itself, every ancestor, the trackable root and the universal root),
so the instance appears in the get_instances snapshot of every ancestor class
that carries the `__instancefollower__` capability. -/
theorem new_registers_under_every_ancestor (reg : Registry) (cls : PyClass)
    (i : Nat) (ht : cls.trackInstances = true) :
    (∀ T ∈ cls.mro, liveMemB (InstanceTracker.new reg cls i) T i = true) ∧
    (∀ anc : PyClass, anc.id ∈ cls.mro → instanceTrackerId ∈ anc.mro →
       ∃ l, get_instances (InstanceTracker.new reg cls i) anc = .ok l ∧
         PyVal.inst i ∈ l) := by
  have hreg : InstanceTracker.new reg cls i = InstanceFollower.add reg cls i := by
    unfold InstanceTracker.new
    rw [if_pos ht]
  constructor
  · intro T hT
    rw [hreg]
    exact liveMemB_addFold_mem i cls.mro reg T hT
  · intro anc hanc htr
    refine ⟨InstanceFollower.get (InstanceTracker.new reg cls i) anc.id, ?_, ?_⟩
    · unfold get_instances
      rw [if_pos htr]
    · rw [inst_mem_followerGet_iff, hreg]
      exact liveMemB_addFold_mem i cls.mro reg anc.id hanc

/-- C1 witness: an instance of a BrianObject subclass lands under the
universal root's entry and shows up in get_instances of the BrianObject
ancestor. -/
theorem new_registers_under_every_ancestor_witness :
    liveMemB (InstanceTracker.new [] demoSubClass 5) objectClassId 5 = true ∧
    ∃ l, get_instances (InstanceTracker.new [] demoSubClass 5) brianObjectClass =
        .ok l ∧ PyVal.inst 5 ∈ l :=
  ⟨(new_registers_under_every_ancestor [] demoSubClass 5 rfl).1 objectClassId
     (by decide),
   (new_registers_under_every_ancestor [] demoSubClass 5 rfl).2 brianObjectClass
     (by decide) (by decide)⟩

/-- the effect of `self._active = val` on one attribute dictionary -/
def setA (o : ObjState) (v : Bool) : ObjState := { o with active := .bool v }

lemma updStore_self (σ : Store) (i : Nat) (o : ObjState) :
    updStore σ i o i = o := by
  simp [updStore]

lemma updStore_other {j i : Nat} (σ : Store) (o : ObjState) (h : j ≠ i) :
    updStore σ i o j = σ j := by
  simp [updStore, h]

lemma reaches_congr {σ τ : Store}
    (hagree : ∀ q, (τ q).contained = (σ q).contained) :
    ∀ {a b : Nat}, Reaches σ a b → Reaches τ a b := by
  intro a b h
  induction h with
  | refl i => exact .refl i
  | step i j k kids hc hj _ ih =>
      exact .step i j k kids (by rw [hagree]; exact hc) hj ih

lemma reaches_le {σ : Store} (ht : TopoBelow σ) :
    ∀ {a b : Nat}, Reaches σ a b → b ≤ a := by
  intro a b h
  induction h with
  | refl i => exact le_refl i
  | step i j k kids hc hj _ ih => exact le_trans ih (le_of_lt (ht i kids hc j hj))

lemma reaches_inv {σ : Store} {a b : Nat} {kids : List Nat}
    (hc : (σ a).contained = .list kids) (h : Reaches σ a b) :
    b = a ∨ ∃ j ∈ kids, Reaches σ j b := by
  cases h with
  | refl => exact Or.inl rfl
  | step _ j _ kids' hc' hj hr =>
      rw [hc] at hc'
      injection hc' with h'
      subst h'
      exact Or.inr ⟨j, hj, hr⟩

/-- full characterization of the `active` setter on an acyclic store: with
enough fuel it succeeds, sets `_active` on exactly the containment-reachable
objects and leaves every other object untouched. -/
lemma setActive_run (σ : Store) (v : Bool) (ht : TopoBelow σ)
    (hcl : ContainedListed σ) :
    ∀ i : Nat, ∀ fuel : Nat, i < fuel → ∀ ρ : Store,
      (∀ q, (ρ q).contained = (σ q).contained) →
      (∀ q, ρ q = σ q ∨ ρ q = setA (σ q) v) →
      ∃ τ, BrianObject.setActive fuel ρ i v = .ok τ ∧
        (∀ q, Reaches σ i q → τ q = setA (σ q) v) ∧
        (∀ q, ¬ Reaches σ i q → τ q = ρ q) := by
  intro i
  induction i using Nat.strong_induction_on with
  | _ i IH =>
    intro fuel hfuel ρ hagree hupd
    obtain ⟨fuel, rfl⟩ : ∃ f, fuel = f + 1 := ⟨fuel - 1, by omega⟩
    obtain ⟨kids, hkids⟩ := hcl i
    have hρkids : (ρ i).contained = .list kids := by rw [hagree]; exact hkids
    have hsetA : { ρ i with active := .bool v } = setA (σ i) v := by
      rcases hupd i with h | h <;> rw [h] <;> rfl
    have hstep : BrianObject.setActive (fuel + 1) ρ i v =
        kids.foldlM (fun t j => BrianObject.setActive fuel t j v)
          (updStore ρ i { ρ i with active := .bool v }) := by
      simp only [BrianObject.setActive, hρkids]
    have inner : ∀ ks : List Nat, (∀ j ∈ ks, j < i) →
        ∀ ρc : Store, (∀ q, (ρc q).contained = (σ q).contained) →
          (∀ q, ρc q = σ q ∨ ρc q = setA (σ q) v) →
          ∃ τ, ks.foldlM (fun t j => BrianObject.setActive fuel t j v) ρc = .ok τ ∧
            (∀ q, (∃ j ∈ ks, Reaches σ j q) → τ q = setA (σ q) v) ∧
            (∀ q, (¬ ∃ j ∈ ks, Reaches σ j q) → τ q = ρc q) := by
      intro ks
      induction ks with
      | nil =>
          intro _ ρc _ _
          refine ⟨ρc, rfl, ?_, fun q _ => rfl⟩
          rintro q ⟨j, hj, _⟩
          cases hj
      | cons a rest ihks =>
          intro hlt ρc hag hup
          have ha : a < i := hlt a (List.mem_cons_self a rest)
          obtain ⟨τ1, hτ1, hr1, hn1⟩ := IH a ha fuel (by omega) ρc hag hup
          have hag1 : ∀ q, (τ1 q).contained = (σ q).contained := by
            intro q
            by_cases hq : Reaches σ a q
            · rw [hr1 q hq]; rfl
            · rw [hn1 q hq]; exact hag q
          have hup1 : ∀ q, τ1 q = σ q ∨ τ1 q = setA (σ q) v := by
            intro q
            by_cases hq : Reaches σ a q
            · exact Or.inr (hr1 q hq)
            · rw [hn1 q hq]; exact hup q
          obtain ⟨τ, hτ, hr2, hn2⟩ :=
            ihks (fun j hj => hlt j (List.mem_cons.mpr (Or.inr hj))) τ1 hag1 hup1
          refine ⟨τ, ?_, ?_, ?_⟩
          · rw [List.foldlM_cons, hτ1]
            exact hτ
          · rintro q ⟨j, hj, hreach⟩
            rcases List.mem_cons.mp hj with rfl | hj'
            · by_cases h2 : ∃ j ∈ rest, Reaches σ j q
              · exact hr2 q h2
              · rw [hn2 q h2]
                exact hr1 q hreach
            · exact hr2 q ⟨j, hj', hreach⟩
          · intro q hq
            have hqa : ¬ Reaches σ a q :=
              fun h => hq ⟨a, List.mem_cons_self a rest, h⟩
            have hqrest : ¬ ∃ j ∈ rest, Reaches σ j q := by
              rintro ⟨j, hj, h⟩
              exact hq ⟨j, List.mem_cons.mpr (Or.inr hj), h⟩
            rw [hn2 q hqrest, hn1 q hqa]
    have hlt_kids : ∀ j ∈ kids, j < i := fun j hj => ht i kids hkids j hj
    have hag1 : ∀ q, ((updStore ρ i (setA (σ i) v)) q).contained = (σ q).contained := by
      intro q
      by_cases hq : q = i
      · subst hq
        rw [updStore_self]
        rfl
      · rw [updStore_other _ _ hq]
        exact hagree q
    have hup1 : ∀ q, (updStore ρ i (setA (σ i) v)) q = σ q ∨
        (updStore ρ i (setA (σ i) v)) q = setA (σ q) v := by
      intro q
      by_cases hq : q = i
      · subst hq
        rw [updStore_self]
        exact Or.inr rfl
      · rw [updStore_other _ _ hq]
        exact hupd q
    obtain ⟨τ, hτ, hr, hn⟩ := inner kids hlt_kids (updStore ρ i (setA (σ i) v)) hag1 hup1
    refine ⟨τ, ?_, ?_, ?_⟩
    · rw [hstep, hsetA]
      exact hτ
    · intro q hq
      rcases reaches_inv hkids hq with rfl | ⟨j, hj, hr'⟩
      · by_cases hrest : ∃ j ∈ kids, Reaches σ j q
        · obtain ⟨j, hj, h⟩ := hrest
          have h1 := reaches_le ht h
          have h2 := hlt_kids j hj
          omega
        · rw [hn q hrest, updStore_self]
      · exact hr q ⟨j, hj, hr'⟩
    · intro q hq
      have hne : q ≠ i := by
        rintro rfl
        exact hq (Reaches.refl q)
      have hnex : ¬ ∃ j ∈ kids, Reaches σ j q := by
        rintro ⟨j, hj, h⟩
        exact hq (Reaches.step i j q kids hkids hj h)
      rw [hn q hnex, updStore_other _ _ hne]

/-- C5: on a finite acyclic containment graph, setting `active = v` on an
object sets `_active` to `v` on it and on every recursively contained object,
leaves every unreachable object's dictionary untouched, and in particular
setting a contained child's `active` directly never changes the parent's
`_active`. -/
theorem set_active_cascades_deep (σ : Store) (v : Bool) (p : Nat)
    (ht : TopoBelow σ) (hcl : ContainedListed σ) :
    ∃ τ, BrianObject.setActive (p + 1) σ p v = .ok τ ∧
      (∀ q, Reaches σ p q → (τ q).active = .bool v) ∧
      (∀ q, ¬ Reaches σ p q → τ q = σ q) ∧
      (∀ par kids, (σ par).contained = .list kids → p ∈ kids →
         (τ par).active = (σ par).active) := by
  obtain ⟨τ, hτ, hr, hn⟩ :=
    setActive_run σ v ht hcl p (p + 1) (by omega) σ (fun _ => rfl)
      (fun _ => Or.inl rfl)
  refine ⟨τ, hτ, ?_, hn, ?_⟩
  · intro q hq
    rw [hr q hq]
    rfl
  · intro par kids hc hp
    have hplt : p < par := ht par kids hc p hp
    have hnr : ¬ Reaches σ p par := by
      intro h
      have := reaches_le ht h
      omega
    rw [hn par hnr]

/-- C10: on a finite acyclic containment graph (children topologically below
their containers) the cycle-guard-free cascade of the `active` setter
terminates: there is one resulting store that every sufficient fuel bound
computes. -/
theorem set_active_terminates_on_acyclic (σ : Store) (v : Bool) (p : Nat)
    (ht : TopoBelow σ) (hcl : ContainedListed σ) :
    ∃ τ, ∀ fuel, p < fuel → BrianObject.setActive fuel σ p v = .ok τ := by
  obtain ⟨τ0, hτ0, hr0, hn0⟩ :=
    setActive_run σ v ht hcl p (p + 1) (by omega) σ (fun _ => rfl)
      (fun _ => Or.inl rfl)
  refine ⟨τ0, ?_⟩
  intro fuel hf
  obtain ⟨τ, hτ, hr, hn⟩ :=
    setActive_run σ v ht hcl p fuel hf σ (fun _ => rfl) (fun _ => Or.inl rfl)
  have hττ : τ = τ0 := by
    funext q
    by_cases hq : Reaches σ p q
    · rw [hr q hq, hr0 q hq]
    · rw [hn q hq, hn0 q hq]
  rw [hτ, hττ]

/-- a compound object 2 containing objects 0 and 1 -/
def demoStore : Store := fun i =>
  if i = 2 then ⟨.none, .none, .none, .list [0, 1], .bool true⟩
  else ⟨.none, .none, .none, .list [], .bool true⟩

lemma demoStore_topo : TopoBelow demoStore := by
  intro i kids hk j hj
  unfold demoStore at hk
  split_ifs at hk with hi
  · subst hi
    injection hk with h'
    subst h'
    simp at hj
    omega
  · injection hk with h'
    subst h'
    simp at hj

lemma demoStore_listed : ContainedListed demoStore := by
  intro i
  unfold demoStore
  split_ifs with hi
  · exact ⟨[0, 1], rfl⟩
  · exact ⟨[], rfl⟩

/-- C5 witness: deactivating the compound object 2 of `demoStore`. -/
theorem set_active_cascades_deep_witness :
    ∃ τ, BrianObject.setActive (2 + 1) demoStore 2 false = .ok τ ∧
      (∀ q, Reaches demoStore 2 q → (τ q).active = .bool false) ∧
      (∀ q, ¬ Reaches demoStore 2 q → τ q = demoStore q) ∧
      (∀ par kids, (demoStore par).contained = .list kids → 2 ∈ kids →
         (τ par).active = (demoStore par).active) :=
  set_active_cascades_deep demoStore false 2 demoStore_topo demoStore_listed

/-- C10 witness: the cascade from object 2 of `demoStore` terminates. -/
theorem set_active_terminates_on_acyclic_witness :
    ∃ τ, ∀ fuel, 2 < fuel → BrianObject.setActive fuel demoStore 2 false = .ok τ :=
  set_active_terminates_on_acyclic demoStore false 2 demoStore_topo demoStore_listed

lemma anyLive_iff (ws : List Handle) (i : Nat) :
    anyLive ws i = true ↔ ∃ h ∈ ws, h.alive = true ∧ h.target = i := by
  unfold anyLive
  rw [List.any_eq_true]
  simp only [Bool.and_eq_true, beq_iff_eq]

lemma anyLive_filter_self (ws : List Handle) (i : Nat) :
    anyLive (ws.filter fun h => !(h.alive && h.target == i)) i = false := by
  rw [Bool.eq_false_iff]
  intro hmem
  rw [anyLive_iff] at hmem
  obtain ⟨h, hh, ha, hti⟩ := hmem
  have hp := (List.mem_filter.mp hh).2
  rw [ha, hti] at hp
  simp at hp

lemma anyLive_filter_ne (ws : List Handle) {i j : Nat} (hne : j ≠ i) :
    anyLive (ws.filter fun h => !(h.alive && h.target == i)) j = anyLive ws j := by
  apply Bool.eq_iff_iff.mpr
  rw [anyLive_iff, anyLive_iff]
  constructor
  · rintro ⟨h, hh, ha, ht⟩
    exact ⟨h, (List.mem_filter.mp hh).1, ha, ht⟩
  · rintro ⟨h, hh, ha, ht⟩
    refine ⟨h, List.mem_filter.mpr ⟨hh, ?_⟩, ha, ht⟩
    simp [ha, ht, hne]

lemma liveMemB_congr {r r' : Registry} {c : Nat}
    (h : regFind r' c = regFind r c) (j : Nat) :
    liveMemB r' c j = liveMemB r c j := by
  unfold liveMemB
  rw [h]

lemma regRemoveStep_ok {r : Registry} {c i : Nat} (h : liveMemB r c i = true) :
    ∃ ws, regFind r c = .some ws ∧
      regRemoveStep r c i =
        .ok (regSet r c (ws.filter fun h => !(h.alive && h.target == i))) := by
  unfold liveMemB at h
  cases hf : regFind r c with
  | none => rw [hf] at h; simp at h
  | some ws =>
      rw [hf] at h
      refine ⟨ws, rfl, ?_⟩
      unfold regRemoveStep WeakSet.remove
      rw [hf]
      simp only [Option.getD_some]
      rw [if_pos h]
      rfl

lemma regRemoveStep_spec {r : Registry} {c i : Nat} (h : liveMemB r c i = true) :
    ∃ r', regRemoveStep r c i = .ok r' ∧
      liveMemB r' c i = false ∧
      (∀ c' j, j ≠ i → liveMemB r' c' j = liveMemB r c' j) ∧
      (∀ c', c' ≠ c → regFind r' c' = regFind r c') ∧
      (∀ c' ws', regFind r' c' = .some ws' →
         ∃ ws, regFind r c' = .some ws ∧ ∀ hh ∈ ws', hh ∈ ws) := by
  obtain ⟨ws, hf, hok⟩ := regRemoveStep_ok h
  refine ⟨_, hok, ?_, ?_, ?_, ?_⟩
  · unfold liveMemB
    rw [regFind_regSet, if_pos rfl]
    exact anyLive_filter_self ws i
  · intro c' j hj
    unfold liveMemB
    rw [regFind_regSet]
    by_cases hc : c = c'
    · subst hc
      rw [if_pos rfl, hf]
      exact anyLive_filter_ne ws hj
    · rw [if_neg hc]
  · intro c' hc
    rw [regFind_regSet, if_neg (fun hh => hc hh.symm)]
  · intro c' ws' hfind
    rw [regFind_regSet] at hfind
    by_cases hc : c = c'
    · rw [if_pos hc] at hfind
      injection hfind with h'
      subst h'
      subst hc
      exact ⟨ws, hf, fun hh hmem => (List.mem_filter.mp hmem).1⟩
    · rw [if_neg hc] at hfind
      exact ⟨ws', hfind, fun _ hm => hm⟩

lemma removeFold_spec (i : Nat) :
    ∀ (l : List Nat), l.Nodup → ∀ (r : Registry),
      (∀ c ∈ l, liveMemB r c i = true) →
      ∃ r', l.foldlM (fun r c => regRemoveStep r c i) r = .ok r' ∧
        (∀ c ∈ l, liveMemB r' c i = false) ∧
        (∀ c, c ∉ l → regFind r' c = regFind r c) ∧
        (∀ c j, j ≠ i → liveMemB r' c j = liveMemB r c j) ∧
        (∀ c ws', regFind r' c = .some ws' →
           ∃ ws, regFind r c = .some ws ∧ ∀ hh ∈ ws', hh ∈ ws) := by
  intro l
  induction l with
  | nil =>
      intro _ r _
      refine ⟨r, rfl, ?_, fun _ _ => rfl, fun _ _ _ => rfl,
        fun _ ws' hf => ⟨ws', hf, fun _ hm => hm⟩⟩
      intro c hc
      cases hc
  | cons a rest ih =>
      intro hnd r hmem
      obtain ⟨hna, hndr⟩ := List.nodup_cons.mp hnd
      obtain ⟨r1, hok1, hz1, hprj1, hother1, hsub1⟩ :=
        regRemoveStep_spec (hmem a (List.mem_cons_self a rest))
      have hmem1 : ∀ c ∈ rest, liveMemB r1 c i = true := by
        intro c hc
        have hca : c ≠ a := fun he => hna (he ▸ hc)
        rw [liveMemB_congr (hother1 c hca) i]
        exact hmem c (List.mem_cons.mpr (Or.inr hc))
      obtain ⟨r', hok', hz', hpres', hprj', hsub'⟩ := ih hndr r1 hmem1
      refine ⟨r', ?_, ?_, ?_, ?_, ?_⟩
      · rw [List.foldlM_cons, hok1]
        exact hok'
      · intro c hc
        rcases List.mem_cons.mp hc with rfl | hc'
        · rw [liveMemB_congr (hpres' c hna) i]
          exact hz1
        · exact hz' c hc'
      · intro c hc
        have hcr : c ∉ rest := fun hm => hc (List.mem_cons.mpr (Or.inr hm))
        have hca : c ≠ a := fun he => hc (he ▸ List.mem_cons_self a rest)
        rw [hpres' c hcr]
        exact hother1 c hca
      · intro c j hj
        rw [hprj' c j hj]
        exact hprj1 c j hj
      · intro c ws' hf
        obtain ⟨ws1, hf1, hs1⟩ := hsub' c ws' hf
        obtain ⟨ws0, hf0, hs0⟩ := hsub1 c ws1 hf1
        exact ⟨ws0, hf0, fun hh hm => hs0 hh (hs1 hh hm)⟩

lemma topoBelow_congr {σ τ : Store}
    (h : ∀ q, (τ q).contained = (σ q).contained) (ht : TopoBelow σ) :
    TopoBelow τ := by
  intro i kids hk j hj
  refine ht i kids ?_ j hj
  rw [← h i]
  exact hk

lemma containedListed_congr {σ τ : Store}
    (h : ∀ q, (τ q).contained = (σ q).contained) (hc : ContainedListed σ) :
    ContainedListed τ := by
  intro i
  obtain ⟨kids, hk⟩ := hc i
  refine ⟨kids, ?_⟩
  rw [h i]
  exact hk

lemma liveMemB_exists {reg : Registry} {c t : Nat} (h : liveMemB reg c t = true) :
    ∃ ws, regFind reg c = .some ws ∧ ∃ hh ∈ ws, hh.alive = true ∧ hh.target = t := by
  unfold liveMemB at h
  cases hf : regFind reg c with
  | none => rw [hf] at h; simp at h
  | some ws =>
      rw [hf] at h
      exact ⟨ws, rfl, (anyLive_iff ws t).mp h⟩

lemma followerGet_map {reg : Registry} {c : Nat} {ws : List Handle}
    (hf : regFind reg c = .some ws) (hl : ∀ h ∈ ws, h.alive = true) :
    InstanceFollower.get reg c = ws.map (fun h => PyVal.inst h.target) := by
  unfold InstanceFollower.get
  rw [hf]
  unfold WeakSet.get
  apply List.map_congr_left
  intro h hh
  rw [hl h hh]
  simp

/-- run of the first loop of `clear` over a duplicate-free list of live
tracked targets: it succeeds, deactivates every listed object, removes every
listed object from the registry entirely, and touches neither other objects'
membership nor any `_contained_objects` attribute. -/
lemma clearFold_spec (fuel : Nat) :
    ∀ (ts : List Nat) (w : World), ts.Nodup →
      TopoBelow w.store → ContainedListed w.store →
      (∀ c ws, regFind w.reg c = .some ws → ∀ h ∈ ws,
         h.alive = true ∧ c ∈ (w.clsOf h.target).mro) →
      (∀ t ∈ ts, t < fuel) →
      (∀ t ∈ ts, (w.clsOf t).mro.Nodup) →
      (∀ t ∈ ts, ∀ c ∈ (w.clsOf t).mro, liveMemB w.reg c t = true) →
      ∃ w', (ts.map PyVal.inst).foldlM (clearStep fuel) w = .ok w' ∧
        w'.clsOf = w.clsOf ∧
        (∀ q, (w'.store q).contained = (w.store q).contained) ∧
        (∀ q, (w'.store q).active = (w.store q).active ∨
           (w'.store q).active = .bool false) ∧
        (∀ t ∈ ts, (w'.store t).active = .bool false) ∧
        (∀ t ∈ ts, ∀ c, liveMemB w'.reg c t = false) ∧
        (∀ c j, j ∉ ts → liveMemB w'.reg c j = liveMemB w.reg c j) ∧
        (∀ c ws', regFind w'.reg c = .some ws' →
           ∃ ws, regFind w.reg c = .some ws ∧ ∀ hh ∈ ws', hh ∈ ws) := by
  intro ts
  induction ts with
  | nil =>
      intro w _ _ _ _ _ _ _
      exact ⟨w, rfl, rfl, fun _ => rfl, fun _ => Or.inl rfl,
        fun t ht => absurd ht (List.not_mem_nil t),
        fun t ht => absurd ht (List.not_mem_nil t),
        fun _ _ _ => rfl, fun _ ws' hf => ⟨ws', hf, fun _ hm => hm⟩⟩
  | cons t rest ih =>
      intro w hnd ht hcl hkc hfuel hmro hmem
      obtain ⟨hnt, hndr⟩ := List.nodup_cons.mp hnd
      -- the cascade `obj.active = False`
      obtain ⟨st, hst, hr, hn⟩ :=
        setActive_run w.store false ht hcl t fuel
          (hfuel t (List.mem_cons_self t rest)) w.store (fun _ => rfl)
          (fun _ => Or.inl rfl)
      have hagst : ∀ q, (st q).contained = (w.store q).contained := by
        intro q
        by_cases hq : Reaches w.store t q
        · rw [hr q hq]; rfl
        · rw [hn q hq]
      have hactst : ∀ q, (st q).active = (w.store q).active ∨
          (st q).active = .bool false := by
        intro q
        by_cases hq : Reaches w.store t q
        · rw [hr q hq]; exact Or.inr rfl
        · rw [hn q hq]; exact Or.inl rfl
      have hstt : (st t).active = .bool false := by
        rw [hr t (Reaches.refl t)]; rfl
      -- `obj._stop_tracking()`
      obtain ⟨rg, hrg, hz, hregpres, hlivepres, hsub⟩ :=
        removeFold_spec t ((w.clsOf t).mro)
          (hmro t (List.mem_cons_self t rest)) w.reg
          (hmem t (List.mem_cons_self t rest))
      have hrg' : InstanceTracker.stopTracking w.reg (w.clsOf t) t = .ok rg := by
        unfold InstanceTracker.stopTracking InstanceFollower.remove
        exact hrg
      have hstep1 : clearStep fuel w (.inst t) =
          .ok ⟨rg, w.clsOf, st⟩ := by
        show (do
          let st ← BrianObject.setActive fuel w.store t false
          let rg ← InstanceTracker.stopTracking w.reg (w.clsOf t) t
          pure { w with store := st, reg := rg }) = .ok ⟨rg, w.clsOf, st⟩
        rw [hst, hrg']
        rfl
      -- conditions for the tail, run from the world after this step
      have hkc1 : ∀ c ws,
          regFind (World.mk rg w.clsOf st).reg c = .some ws → ∀ h ∈ ws,
          h.alive = true ∧ c ∈ ((World.mk rg w.clsOf st).clsOf h.target).mro := by
        intro c ws hf h hh
        obtain ⟨ws0, hf0, hs0⟩ := hsub c ws hf
        exact hkc c ws0 hf0 h (hs0 h hh)
      have hmem1 : ∀ t' ∈ rest, ∀ c ∈ ((World.mk rg w.clsOf st).clsOf t').mro,
          liveMemB (World.mk rg w.clsOf st).reg c t' = true := by
        intro t' ht' c hc
        have htt : t' ≠ t := fun he => hnt (he ▸ ht')
        show liveMemB rg c t' = true
        rw [hlivepres c t' htt]
        exact hmem t' (List.mem_cons.mpr (Or.inr ht')) c hc
      obtain ⟨w', hfold, hcls, hag', hact', hts', hz', hpres', hsub'⟩ :=
        ih (World.mk rg w.clsOf st) hndr (topoBelow_congr hagst ht)
          (containedListed_congr hagst hcl)
          hkc1 (fun t' ht' => hfuel t' (List.mem_cons.mpr (Or.inr ht')))
          (fun t' ht' => hmro t' (List.mem_cons.mpr (Or.inr ht'))) hmem1
      refine ⟨w', ?_, ?_, ?_, ?_, ?_, ?_, ?_, ?_⟩
      · rw [List.map_cons, List.foldlM_cons, hstep1]
        exact hfold
      · rw [hcls]
      · intro q
        rw [hag' q]
        exact hagst q
      · intro q
        rcases hact' q with h1 | h1
        · rw [h1]
          exact hactst q
        · exact Or.inr h1
      · intro t' ht'
        rcases List.mem_cons.mp ht' with rfl | h1
        · rcases hact' t' with h2 | h2
          · rw [h2]
            exact hstt
          · exact h2
        · exact hts' t' h1
      · intro t' ht' c
        rcases List.mem_cons.mp ht' with rfl | h1
        · have h6 : liveMemB w'.reg c t' = liveMemB rg c t' := hpres' c t' hnt
          rw [h6]
          by_cases hcm : c ∈ (w.clsOf t').mro
          · exact hz c hcm
          · rw [liveMemB_congr (hregpres c hcm) t', Bool.eq_false_iff]
            intro hlive
            obtain ⟨ws, hf, hh, hhmem, _, htarget⟩ := liveMemB_exists hlive
            exact hcm (htarget ▸ (hkc c ws hf hh hhmem).2)
        · exact hz' t' h1 c
      · intro c j hj
        have hjr : j ∉ rest := fun hm => hj (List.mem_cons.mpr (Or.inr hm))
        have hjt : j ≠ t := fun he => hj (he ▸ List.mem_cons_self t rest)
        have h7 : liveMemB w'.reg c j = liveMemB rg c j := hpres' c j hjr
        rw [h7]
        exact hlivepres c j hjt
      · intro c ws' hf
        obtain ⟨ws1, hf1, hs1⟩ := hsub' c ws' hf
        obtain ⟨ws0, hf0, hs0⟩ := hsub c ws1 hf1
        exact ⟨ws0, hf0, fun hh hm => hs0 hh (hs1 hh hm)⟩

lemma bind_ok_red {α β : Type} (a : α) (f : α → Except PyErr β) :
    (Except.ok a >>= f : Except PyErr β) = f a := rfl

lemma get_instances_brian (reg : Registry) :
    get_instances reg brianObjectClass =
      .ok (InstanceFollower.get reg brianObjectId) := by
  unfold get_instances
  rw [if_pos (by decide)]
  rfl

lemma get_instances_ok {reg : Registry} {cls : PyClass} {l : List PyVal}
    (h : get_instances reg cls = .ok l) :
    l = InstanceFollower.get reg cls.id := by
  unfold get_instances at h
  split_ifs at h with htr
  injection h with h'
  exact h'.symm

lemma clear_eval_false {fuel : Nat} {w w1 : World}
    (hfold : (InstanceFollower.get w.reg brianObjectId).foldlM
        (clearStep fuel) w = .ok w1) :
    clear fuel false w = .ok w1 := by
  unfold clear
  rw [get_instances_brian]
  simp only [bind_ok_red]
  rw [hfold]
  rfl

lemma clear_eval_true {fuel : Nat} {w w1 : World}
    (hfold : (InstanceFollower.get w.reg brianObjectId).foldlM
        (clearStep fuel) w = .ok w1) :
    clear fuel true w = .ok { w1 with
      store := eraseStore w1.store (InstanceFollower.get w.reg brianObjectId) } := by
  unfold clear
  rw [get_instances_brian]
  simp only [bind_ok_red]
  rw [hfold]
  rfl

lemma clear_eval_error {fuel : Nat} {erase : Bool} {w : World} {e : PyErr}
    (hfold : (InstanceFollower.get w.reg brianObjectId).foldlM
        (clearStep fuel) w = .error e) :
    clear fuel erase w = .error e := by
  unfold clear
  rw [get_instances_brian]
  simp only [bind_ok_red]
  rw [hfold]
  rfl

/-- C6: under the maintained registry and store invariants, `clear(erase =
false)` succeeds, sets `_active = false` on every currently tracked
BrianObject, removes each from the registry under every class, makes every
subsequent get_instances query miss them, and running `clear` again on the
result is a no-op returning the same state. -/
theorem clear_deactivates_untracks_idempotent (fuel : Nat) (w : World)
    (hinv : RegInv w) (ht : TopoBelow w.store) (hcl : ContainedListed w.store)
    (hfuel : ∀ p ∈ w.reg, ∀ h ∈ p.2, h.target < fuel) :
    ∃ w', clear fuel false w = .ok w' ∧
      (∀ i, PyVal.inst i ∈ InstanceFollower.get w.reg brianObjectId →
         (w'.store i).active = .bool false ∧ ∀ c, liveMemB w'.reg c i = false) ∧
      (∀ i cls l, PyVal.inst i ∈ InstanceFollower.get w.reg brianObjectId →
         get_instances w'.reg cls = .ok l → PyVal.inst i ∉ l) ∧
      clear fuel false w' = .ok w' := by
  obtain ⟨hAlive, hNodup, hKey, hMro, hFull⟩ := hinv
  have hkc : ∀ c ws, regFind w.reg c = .some ws → ∀ h ∈ ws,
      h.alive = true ∧ c ∈ (w.clsOf h.target).mro := by
    intro c ws hf h hh
    exact ⟨hAlive (c, ws) (regFind_mem hf) h hh,
      hKey (c, ws) (regFind_mem hf) h hh⟩
  cases hb : regFind w.reg brianObjectId with
  | none =>
      have hget : InstanceFollower.get w.reg brianObjectId = [] := by
        unfold InstanceFollower.get
        rw [hb]
      have hclear : clear fuel false w = .ok w :=
        clear_eval_false (by rw [hget]; rfl)
      refine ⟨w, hclear, ?_, ?_, hclear⟩
      · intro i hi
        rw [hget] at hi
        cases hi
      · intro i cls l hi
        rw [hget] at hi
        cases hi
  | some ws0 =>
      have hmemp : (brianObjectId, ws0) ∈ w.reg := regFind_mem hb
      have hl0 : ∀ h ∈ ws0, h.alive = true := hAlive _ hmemp
      have hget : InstanceFollower.get w.reg brianObjectId =
          (ws0.map Handle.target).map PyVal.inst := by
        rw [followerGet_map hb hl0, List.map_map]
        rfl
      have htsnd : (ws0.map Handle.target).Nodup := hNodup _ hmemp
      have htfuel : ∀ t ∈ ws0.map Handle.target, t < fuel := by
        intro t htm
        obtain ⟨h, hh, rfl⟩ := List.mem_map.mp htm
        exact hfuel _ hmemp h hh
      have htmro : ∀ t ∈ ws0.map Handle.target, (w.clsOf t).mro.Nodup := by
        intro t htm
        obtain ⟨h, hh, rfl⟩ := List.mem_map.mp htm
        exact hMro _ hmemp h hh
      have htmem : ∀ t ∈ ws0.map Handle.target, ∀ c ∈ (w.clsOf t).mro,
          liveMemB w.reg c t = true := by
        intro t htm
        obtain ⟨h, hh, rfl⟩ := List.mem_map.mp htm
        exact hFull _ hmemp h hh
      obtain ⟨w', hfold, hcls, hag, hact, htsact, htz, hpres, hsub⟩ :=
        clearFold_spec fuel (ws0.map Handle.target) w htsnd ht hcl hkc
          htfuel htmro htmem
      have hclear : clear fuel false w = .ok w' :=
        clear_eval_false (by rw [hget]; exact hfold)
      have hmem_iff : ∀ i,
          PyVal.inst i ∈ InstanceFollower.get w.reg brianObjectId ↔
            i ∈ ws0.map Handle.target := by
        intro i
        rw [hget]
        constructor
        · intro hm
          obtain ⟨t, htm, heq⟩ := List.mem_map.mp hm
          injection heq with h'
          exact h' ▸ htm
        · intro hm
          exact List.mem_map.mpr ⟨i, hm, rfl⟩
      refine ⟨w', hclear, ?_, ?_, ?_⟩
      · intro i hi
        have hits := (hmem_iff i).mp hi
        exact ⟨htsact i hits, htz i hits⟩
      · intro i cls l hi hok hmem'
        have hits := (hmem_iff i).mp hi
        have hleq : l = InstanceFollower.get w'.reg cls.id := get_instances_ok hok
        rw [hleq, inst_mem_followerGet_iff, htz i hits cls.id] at hmem'
        exact Bool.noConfusion hmem'
      · have hsnap' : InstanceFollower.get w'.reg brianObjectId = [] := by
          unfold InstanceFollower.get
          cases hb' : regFind w'.reg brianObjectId with
          | none => rfl
          | some ws' =>
              have hws' : ws' = [] := by
                rw [List.eq_nil_iff_forall_not_mem]
                intro h hh
                obtain ⟨ws00, hf00, hs00⟩ := hsub brianObjectId ws' hb'
                rw [hb] at hf00
                injection hf00 with h00
                subst h00
                have hh0 : h ∈ ws0 := hs00 h hh
                have htm : h.target ∈ ws0.map Handle.target :=
                  List.mem_map.mpr ⟨h, hh0, rfl⟩
                have hfalse := htz h.target htm brianObjectId
                have htrue : liveMemB w'.reg brianObjectId h.target = true := by
                  unfold liveMemB
                  rw [hb', anyLive_iff]
                  exact ⟨h, hh, hl0 h hh0, rfl⟩
                rw [hfalse] at htrue
                exact Bool.noConfusion htrue
              rw [hws']
              rfl
        exact clear_eval_false (by rw [hsnap']; rfl)

/-- a world with one tracked BrianObject instance (id 0) and no containment -/
def demoWorld : World :=
  ⟨InstanceTracker.new [] brianObjectClass 0, fun _ => brianObjectClass,
   fun _ => ⟨.str startLabel, .int 0, .clockRef 0, .list [], .bool true⟩⟩

lemma demoWorld_topo : TopoBelow demoWorld.store := by
  intro i kids hk j hj
  have hk' : PyVal.list ([] : List Nat) = PyVal.list kids := hk
  injection hk' with h'
  subst h'
  cases hj

lemma demoWorld_listed : ContainedListed demoWorld.store := fun _ => ⟨[], rfl⟩

lemma demoWorld_inv : RegInv demoWorld := by
  unfold RegInv
  decide

/-- C6 witness: clearing the one-object world. -/
theorem clear_deactivates_untracks_idempotent_witness :
    ∃ w', clear 1 false demoWorld = .ok w' ∧
      (∀ i, PyVal.inst i ∈ InstanceFollower.get demoWorld.reg brianObjectId →
         (w'.store i).active = .bool false ∧ ∀ c, liveMemB w'.reg c i = false) ∧
      (∀ i cls l, PyVal.inst i ∈ InstanceFollower.get demoWorld.reg brianObjectId →
         get_instances w'.reg cls = .ok l → PyVal.inst i ∉ l) ∧
      clear 1 false w' = .ok w' :=
  clear_deactivates_untracks_idempotent 1 demoWorld demoWorld_inv demoWorld_topo
    demoWorld_listed (by decide)

lemma eraseStore_not_mem :
    ∀ (objs : List PyVal) (σ : Store) (i : Nat), PyVal.inst i ∉ objs →
      eraseStore σ objs i = σ i := by
  intro objs
  induction objs with
  | nil => intro σ i _; rfl
  | cons a rest ih =>
      intro σ i h
      have hrest : PyVal.inst i ∉ rest :=
        fun hm => h (List.mem_cons.mpr (Or.inr hm))
      cases a with
      | inst j =>
          have hji : j ≠ i := by
            intro he
            exact h (by rw [he]; exact List.mem_cons_self _ _)
          show eraseStore (updStore σ j allNone) rest i = σ i
          rw [ih _ _ hrest]
          exact updStore_other σ allNone (Ne.symm hji)
      | none => exact ih _ _ hrest
      | bool b => exact ih _ _ hrest
      | int n => exact ih _ _ hrest
      | str s => exact ih _ _ hrest
      | clockRef c => exact ih _ _ hrest
      | list l => exact ih _ _ hrest

lemma eraseStore_mem :
    ∀ (objs : List PyVal) (σ : Store) (i : Nat), PyVal.inst i ∈ objs →
      eraseStore σ objs i = allNone := by
  intro objs
  induction objs with
  | nil =>
      intro σ i h
      cases h
  | cons a rest ih =>
      intro σ i h
      by_cases hrest : PyVal.inst i ∈ rest
      · cases a with
        | inst j => exact ih _ _ hrest
        | none => exact ih _ _ hrest
        | bool b => exact ih _ _ hrest
        | int n => exact ih _ _ hrest
        | str s => exact ih _ _ hrest
        | clockRef c => exact ih _ _ hrest
        | list l => exact ih _ _ hrest
      · rcases List.mem_cons.mp h with heq | hmem
        · rw [← heq]
          show eraseStore (updStore σ i allNone) rest i = allNone
          rw [eraseStore_not_mem rest _ i hrest]
          exact updStore_self σ i allNone
        · exact absurd hmem hrest

/-- the erase pass as a whole-world transformation -/
def eraseWorld (objs : List PyVal) (w' : World) : World :=
  { w' with store := eraseStore w'.store objs }

/-- success of the untracking loop under the registry and store invariants -/
lemma clearFold_ok (fuel : Nat) (w : World) (hinv : RegInv w)
    (ht : TopoBelow w.store) (hcl : ContainedListed w.store)
    (hfuel : ∀ p ∈ w.reg, ∀ h ∈ p.2, h.target < fuel) :
    ∃ w1, (InstanceFollower.get w.reg brianObjectId).foldlM
        (clearStep fuel) w = .ok w1 := by
  obtain ⟨hAlive, hNodup, hKey, hMro, hFull⟩ := hinv
  have hkc : ∀ c ws, regFind w.reg c = .some ws → ∀ h ∈ ws,
      h.alive = true ∧ c ∈ (w.clsOf h.target).mro := by
    intro c ws hf h hh
    exact ⟨hAlive (c, ws) (regFind_mem hf) h hh,
      hKey (c, ws) (regFind_mem hf) h hh⟩
  cases hb : regFind w.reg brianObjectId with
  | none =>
      refine ⟨w, ?_⟩
      have hget : InstanceFollower.get w.reg brianObjectId = [] := by
        unfold InstanceFollower.get
        rw [hb]
      rw [hget]
      rfl
  | some ws0 =>
      have hmemp : (brianObjectId, ws0) ∈ w.reg := regFind_mem hb
      have hl0 : ∀ h ∈ ws0, h.alive = true := hAlive _ hmemp
      have hget : InstanceFollower.get w.reg brianObjectId =
          (ws0.map Handle.target).map PyVal.inst := by
        rw [followerGet_map hb hl0, List.map_map]
        rfl
      obtain ⟨w', hfold, _⟩ :=
        clearFold_spec fuel (ws0.map Handle.target) w (hNodup _ hmemp) ht hcl hkc
          (by
            intro t htm
            obtain ⟨h, hh, rfl⟩ := List.mem_map.mp htm
            exact hfuel _ hmemp h hh)
          (by
            intro t htm
            obtain ⟨h, hh, rfl⟩ := List.mem_map.mp htm
            exact hMro _ hmemp h hh)
          (by
            intro t htm
            obtain ⟨h, hh, rfl⟩ := List.mem_map.mp htm
            exact hFull _ hmemp h hh)
      refine ⟨w', ?_⟩
      rw [hget]
      exact hfold

/-- C7: `clear(erase = true)` equals `clear(erase = false)` followed by the
erase pass over the same snapshot — the erasure runs only after the
deactivation-and-untracking loop has completed for all objects — and on
success every attribute of every snapshotted object is the null value. -/
theorem clear_erase_nulls_after_untrack (fuel : Nat) (w : World)
    (hinv : RegInv w) (ht : TopoBelow w.store) (hcl : ContainedListed w.store)
    (hfuel : ∀ p ∈ w.reg, ∀ h ∈ p.2, h.target < fuel) :
    clear fuel true w = (clear fuel false w).map
        (eraseWorld (InstanceFollower.get w.reg brianObjectId)) ∧
    ∃ w'', clear fuel true w = .ok w'' ∧
      ∀ i, PyVal.inst i ∈ InstanceFollower.get w.reg brianObjectId →
        w''.store i = allNone := by
  constructor
  · cases hfold : (InstanceFollower.get w.reg brianObjectId).foldlM
        (clearStep fuel) w with
    | ok w1 =>
        rw [clear_eval_true hfold, clear_eval_false hfold]
        rfl
    | error e =>
        rw [clear_eval_error hfold, clear_eval_error hfold]
        rfl
  · obtain ⟨w1, hfold⟩ := clearFold_ok fuel w hinv ht hcl hfuel
    refine ⟨_, clear_eval_true hfold, ?_⟩
    intro i hi
    exact eraseStore_mem _ _ _ hi

/-- C7 witness: erase-clearing the one-object world nulls the object out. -/
theorem clear_erase_nulls_after_untrack_witness :
    clear 1 true demoWorld = (clear 1 false demoWorld).map
        (eraseWorld (InstanceFollower.get demoWorld.reg brianObjectId)) ∧
    ∃ w'', clear 1 true demoWorld = .ok w'' ∧
      ∀ i, PyVal.inst i ∈ InstanceFollower.get demoWorld.reg brianObjectId →
        w''.store i = allNone :=
  clear_erase_nulls_after_untrack 1 demoWorld demoWorld_inv demoWorld_topo
    demoWorld_listed (by decide)

end Brian
